import Mathlib

/-!
Shallow embedding of the `trap` Go package (graceful-shutdown coordinator).

The package state is:
  * `cbsList : map[os.Signal]*list.List` — a map from signal to a pointer to
    a doubly linked list of callbacks (`container/list`);
  * `ch : chan os.Signal` — the buffered signal channel;
  * a `sync.RWMutex` and a `sync.WaitGroup`.

Because removers capture the *list pointer* and the *element pointer*
(`l.Remove(e)` in the closure returned by `OnSignal`), object identity
matters: truncation (`cbsList[sig] = list.New()`) installs a fresh list
object while the old object — still referenced by removers and by the
dispatcher's snapshot — survives unchanged.  The embedding therefore models
a heap: list objects are addressed by a `Nat` list id, and the signal map
stores list ids.  List elements are addressed by a `Nat` entry id (fresh at
each `PushBack`), which models `*list.Element` identity; callbacks
themselves are opaque tokens (`Nat`), so two registrations of an equal
callback are distinct entries, exactly as in Go.
-/

set_option autoImplicit false

namespace Trap

/-- Signal values (`os.Signal`): the three termination-class signals, the
reload signal `SIGUSR1`, and arbitrary further signals. -/
inductive Sig where
  | SIGKILL
  | SIGINT
  | SIGQUIT
  | SIGUSR1
  | other (n : Nat)
deriving DecidableEq, Repr

/-- The `switch s { case syscall.SIGKILL, syscall.SIGINT, syscall.SIGQUIT: ... }`
discrimination in `processSignal`. -/
def isTermClass : Sig → Bool
  | .SIGKILL => true
  | .SIGINT => true
  | .SIGQUIT => true
  | _ => false

/-- One element of a `container/list` list: `eid` models the `*list.Element`
pointer identity, `cb` is the opaque callback value pushed by `PushBack`. -/
structure Entry where
  eid : Nat
  cb : Nat
deriving DecidableEq, Repr

/-- Association-list lookup: the Go map read `cbsList[s]` (and the heap read
dereferencing a list pointer). -/
def alookup {α β : Type} [DecidableEq α] : List (α × β) → α → Option β
  | [], _ => none
  | (k, v) :: rest, a => if k = a then some v else alookup rest a

/-- Association-list write: the Go map assignment `cbsList[s] = l`
(insert-or-replace). -/
def aupdate {α β : Type} [DecidableEq α] : List (α × β) → α → β → List (α × β)
  | [], a, b => [(a, b)]
  | (k, v) :: rest, a, b =>
      if k = a then (a, b) :: rest else (k, v) :: aupdate rest a b

/-- The package-level mutable state of the `trap` package: the heap of live
`container/list` objects (list id to elements in front-to-back order), the
map `cbsList` from signal to list id, fresh-id counters, and the list of
signals passed to `signal.Notify` (in call order). -/
structure TrapState where
  heap : List (Nat × List Entry)
  cbsList : List (Sig × Nat)
  nextL : Nat
  nextE : Nat
  notified : List Sig
deriving DecidableEq, Repr

/-- State after the package `init` ran: empty map, nothing notified. -/
def initState : TrapState :=
  { heap := [], cbsList := [], nextL := 0, nextE := 0, notified := [] }

/-- A `CallbackRemover` closure returned by `OnSignal`: it captured the list
pointer `l` (here its id) and the element pointer `e` (here its id). -/
structure Remover where
  lid : Nat
  eid : Nat
deriving DecidableEq, Repr

/-- The list of callbacks the map currently associates to signal `s`:
`none` when `cbsList[s]` misses (`ok = false`), otherwise the pointed-to
list's elements. -/
def listFor (st : TrapState) (s : Sig) : Option (List Entry) :=
  match alookup st.cbsList s with
  | none => none
  | some lid => some ((alookup st.heap lid).getD [])

/-- `OnSignal(sig, cb)`: under the lock, look up `cbsList[sig]`; if absent,
call `signal.Notify(ch, sig)`, allocate a fresh list and store it in the
map; then `PushBack` the callback and return the remover closure. -/
def OnSignal (sig : Sig) (cb : Nat) (st : TrapState) : Remover × TrapState :=
  match alookup st.cbsList sig with
  | some lid =>
      let entries := (alookup st.heap lid).getD []
      (⟨lid, st.nextE⟩,
       { st with
           heap := aupdate st.heap lid (entries ++ [⟨st.nextE, cb⟩]),
           nextE := st.nextE + 1 })
  | none =>
      let lid := st.nextL
      (⟨lid, st.nextE⟩,
       { st with
           heap := aupdate st.heap lid [⟨st.nextE, cb⟩],
           cbsList := aupdate st.cbsList sig lid,
           notified := st.notified ++ [sig],
           nextL := st.nextL + 1,
           nextE := st.nextE + 1 })

/-- Invoking a remover: `l.Remove(e)` on the captured list object.  Removal
is by element identity; an element already removed (or a list object no
longer referenced by the map) leaves the reachable state unchanged. -/
def removeEntry (r : Remover) (st : TrapState) : TrapState :=
  match alookup st.heap r.lid with
  | none => st
  | some entries =>
      { st with
          heap := aupdate st.heap r.lid (entries.filter fun e => e.eid ≠ r.eid) }

/-- `OnReload(cb) = OnSignal(syscall.SIGUSR1, cb)`. -/
def OnReload (cb : Nat) (st : TrapState) : Remover × TrapState :=
  OnSignal .SIGUSR1 cb st

/-- `OnKill(cb)`: register `cb` on `SIGKILL`, then `SIGQUIT`, then `SIGINT`,
collecting the three removers; the combined remover runs them in order. -/
def OnKill (cb : Nat) (st : TrapState) : List Remover × TrapState :=
  let p1 := OnSignal .SIGKILL cb st
  let p2 := OnSignal .SIGQUIT cb p1.2
  let p3 := OnSignal .SIGINT cb p2.2
  ([p1.1, p2.1, p3.1], p3.2)

/-- Running a list of removers in order: the closure `OnKill` returns. -/
def runRemovers (rs : List Remover) (st : TrapState) : TrapState :=
  rs.foldl (fun s r => removeEntry r s) st

/-- The truncation block of `processSignal`: three map assignments
`cbsList[SIGKILL] = list.New(); cbsList[SIGINT] = list.New();
cbsList[SIGQUIT] = list.New()`, each allocating a fresh empty list. -/
def truncateTermLists (st : TrapState) : TrapState :=
  { st with
      heap := aupdate (aupdate (aupdate st.heap st.nextL [])
                (st.nextL + 1) []) (st.nextL + 2) [],
      cbsList := aupdate (aupdate (aupdate st.cbsList .SIGKILL st.nextL)
                   .SIGINT (st.nextL + 1)) .SIGQUIT (st.nextL + 2),
      nextL := st.nextL + 3 }

/-- `processSignal(s)`: under the lock, look up `cbsList[s]` (return if
absent); if `s` is termination-class, truncate all three termination lists;
then invoke the snapshot (the list object looked up before truncation) from
back to front.  Returns the new state and the invoked entries in invocation
order. -/
def processSignal (s : Sig) (st : TrapState) : TrapState × List Entry :=
  match alookup st.cbsList s with
  | none => (st, [])
  | some lid =>
      let snapshot := (alookup st.heap lid).getD []
      (if isTermClass s then truncateTermLists st else st, snapshot.reverse)

/-- The dispatcher loop body applied to a queue of received signals, in
order: state threading plus the concatenated invocation log. -/
def drain (st : TrapState) : List Sig → TrapState × List Entry
  | [] => (st, [])
  | s :: rest =>
      let p := processSignal s st
      let q := drain p.1 rest
      (q.1, p.2 ++ q.2)

/-- Lock-discipline events of one `processSignal` call: `mux.Lock()` on
entry, the deferred `mux.Unlock()` on return, the truncation block, and each
callback invocation, in program order. -/
inductive PEv where
  | lockAcquire
  | truncateTerm
  | invoke (e : Entry)
  | lockRelease
deriving DecidableEq, Repr

/-- The event trace of `processSignal(s)`: `mux.Lock()` runs first and the
deferred `mux.Unlock()` last — in particular every callback invocation
happens between them, with the lock held. -/
def processSignalTrace (s : Sig) (st : TrapState) : List PEv :=
  match alookup st.cbsList s with
  | none => [PEv.lockAcquire, PEv.lockRelease]
  | some lid =>
      let snapshot := (alookup st.heap lid).getD []
      PEv.lockAcquire ::
        ((if isTermClass s then [PEv.truncateTerm] else []) ++
          snapshot.reverse.map PEv.invoke ++ [PEv.lockRelease])

/-- Events of one `Deferrer()` call, in program order. -/
inductive Ev where
  | printPanic
  | printStack
  | stopSignals
  | send (s : Sig)
  | closeCh
  | invoke (e : Entry)
  | waitDone
  | exitCode (n : Nat)
deriving DecidableEq, Repr

/-- `Deferrer()`: if `recover()` caught a panic, print it plus a stack trace
and defer `os.Exit(1)` (which therefore runs when `Deferrer` returns, after
everything else); `signal.Stop(ch)`; send the synthetic `SIGINT`; `close(ch)`;
`wait.Wait()` — which returns once the dispatcher has drained the channel
(the still-pending signals followed by the synthetic `SIGINT`) and exited.
Returns the final state and the linearised event trace. -/
def Deferrer (faulted : Bool) (st : TrapState) (pending : List Sig) :
    TrapState × List Ev :=
  let d := drain st (pending ++ [Sig.SIGINT])
  (d.1,
   (if faulted then [Ev.printPanic, Ev.printStack] else []) ++
     [Ev.stopSignals, Ev.send .SIGINT, Ev.closeCh] ++
     d.2.map Ev.invoke ++ [Ev.waitDone] ++
     (if faulted then [Ev.exitCode 1] else []))

/-- Dispatcher control state: `running` while the `for` loop is receiving,
`stopped` once `<-ch` reported the channel closed and the loop broke
(signalling `wait.Done()`).  The loop has no path back to `running`. -/
inductive Mode where
  | running
  | stopped
deriving DecidableEq, Repr

/-- The dispatcher goroutine together with its channel: the buffered queue,
whether `close(ch)` has happened, the loop mode, and the trap state. -/
structure LoopState where
  mode : Mode
  queue : List Sig
  closed : Bool
  trap : TrapState
deriving DecidableEq, Repr

/-- One iteration of the dispatcher `for` loop: receive (a buffered signal
is processed even after `close`; an empty closed channel yields `ok = false`
and the loop breaks); a stopped loop does nothing.  Returns the invoked
entries of the iteration. -/
def loopStep (ls : LoopState) : LoopState × List Entry :=
  match ls.mode with
  | .stopped => (ls, [])
  | .running =>
      match ls.queue with
      | s :: rest =>
          let p := processSignal s ls.trap
          ({ ls with queue := rest, trap := p.1 }, p.2)
      | [] =>
          if ls.closed then ({ ls with mode := .stopped }, [])
          else (ls, [])

/-- Delivering a signal to the channel: a send on a closed channel is
illegal (it would panic the sender), so it is modelled as rejected. -/
def deliver (s : Sig) (ls : LoopState) : LoopState :=
  if ls.closed then ls else { ls with queue := ls.queue ++ [s] }

/-- An interleaving action against the dispatcher: a delivery attempt or one
loop iteration. -/
inductive Act where
  | give (s : Sig)
  | step
deriving DecidableEq, Repr

/-- Running a sequence of interleaved actions, collecting every invocation. -/
def runActs (ls : LoopState) : List Act → LoopState × List Entry
  | [] => (ls, [])
  | .give s :: rest => runActs (deliver s ls) rest
  | .step :: rest =>
      let p := loopStep ls
      let q := runActs p.1 rest
      (q.1, p.2 ++ q.2)

/-! ### Registration-sequence harness

To state sequence properties (spec section 8), a whole list of callbacks is
registered on one identity in order, collecting the removers. -/

def regAll (sig : Sig) : List Nat → TrapState → List Remover × TrapState
  | [], st => ([], st)
  | c :: rest, st =>
      let p := OnSignal sig c st
      let q := regAll sig rest p.2
      (p.1 :: q.1, q.2)

/-- The entries such a sequence appends: element ids counting up from `n`,
callbacks in registration order. -/
def entriesFrom : Nat → List Nat → List Entry
  | _, [] => []
  | n, c :: rest => Entry.mk n c :: entriesFrom (n + 1) rest

/-- The removers such a sequence returns (all against list id 0, element
ids counting up from the first argument). -/
def removersFrom : Nat → Nat → List Remover
  | _, 0 => []
  | n, k + 1 => Remover.mk 0 n :: removersFrom (n + 1) k

/-- A state whose registry holds exactly one list (list id 0) for `sig`. -/
def oneListState (sig : Sig) (l : List Entry) (n : Nat) : TrapState :=
  { heap := [(0, l)], cbsList := [(sig, 0)], nextL := 1, nextE := n,
    notified := [sig] }

/-! ### Lock-discipline observations on `processSignalTrace` -/

/-- Scans a trace with the current lock-held flag and reports whether some
invocation event happens while the lock is held. -/
def invokedLockedAux : Bool → List PEv → Bool
  | _, [] => false
  | _, PEv.lockAcquire :: rest => invokedLockedAux true rest
  | _, PEv.lockRelease :: rest => invokedLockedAux false rest
  | held, PEv.invoke _ :: rest => held || invokedLockedAux held rest
  | held, PEv.truncateTerm :: rest => invokedLockedAux held rest

/-- Whether a dispatch trace invokes some callback while the exclusive lock
is held. -/
def invokedWhileLocked (tr : List PEv) : Bool :=
  invokedLockedAux false tr

/-! ### Well-formedness

States reachable from `initState` satisfy: list ids stored in the map or
allocated in the heap are below the allocation counter `nextL`; heap and
map keys are duplicate-free; element ids are below `nextE` and
duplicate-free within each list; and the map only stores allocated list
ids. -/

def WF (st : TrapState) : Prop :=
  ((st.cbsList.map Prod.fst).Nodup) ∧
  ((st.cbsList.map Prod.snd).Nodup) ∧
  (∀ p ∈ st.cbsList, p.2 < st.nextL) ∧
  ((st.heap.map Prod.fst).Nodup) ∧
  (∀ p ∈ st.heap, p.1 < st.nextL) ∧
  (∀ p ∈ st.heap, ∀ e ∈ p.2, e.eid < st.nextE) ∧
  (∀ p ∈ st.heap, (p.2.map Entry.eid).Nodup) ∧
  (∀ p ∈ st.cbsList, (alookup st.heap p.2).isSome)

instance (st : TrapState) : Decidable (WF st) := by
  unfold WF
  infer_instance

/-! ### Association-list lemmas -/

theorem alookup_aupdate {α β : Type} [DecidableEq α] (l : List (α × β))
    (k : α) (v : β) (a : α) :
    alookup (aupdate l k v) a = if k = a then some v else alookup l a := by
  induction l with
  | nil => simp [alookup, aupdate]
  | cons p rest ih =>
      obtain ⟨pk, pv⟩ := p
      by_cases hpk : pk = k
      · subst hpk
        by_cases hka : pk = a <;> simp [alookup, aupdate, hka]
      · by_cases hpa : pk = a
        · subst hpa
          have hk : ¬ k = pk := fun h => hpk h.symm
          simp [alookup, aupdate, hpk, hk]
        · simp [alookup, aupdate, hpk, hpa, ih]

theorem alookup_aupdate_self {α β : Type} [DecidableEq α] (l : List (α × β))
    (k : α) (v : β) : alookup (aupdate l k v) k = some v := by
  simp [alookup_aupdate]

theorem alookup_aupdate_ne {α β : Type} [DecidableEq α] (l : List (α × β))
    (k : α) (v : β) (a : α) (h : k ≠ a) :
    alookup (aupdate l k v) a = alookup l a := by
  simp [alookup_aupdate, h]

theorem alookup_mem {α β : Type} [DecidableEq α] {l : List (α × β)} {k : α}
    {v : β} (h : alookup l k = some v) : (k, v) ∈ l := by
  induction l with
  | nil => simp [alookup] at h
  | cons p rest ih =>
      obtain ⟨pk, pv⟩ := p
      by_cases hpk : pk = k
      · subst hpk
        simp [alookup] at h
        subst h
        exact List.mem_cons_self _ _
      · simp [alookup, hpk] at h
        exact List.mem_cons_of_mem _ (ih h)

theorem mem_aupdate {α β : Type} [DecidableEq α] {l : List (α × β)} {k : α}
    {v : β} {p : α × β} (h : p ∈ aupdate l k v) : p = (k, v) ∨ p ∈ l := by
  induction l with
  | nil => simpa [aupdate] using h
  | cons q rest ih =>
      obtain ⟨qk, qv⟩ := q
      by_cases hqk : qk = k
      · subst hqk
        simp [aupdate] at h
        rcases h with h | h
        · exact Or.inl h
        · exact Or.inr (List.mem_cons_of_mem _ h)
      · simp [aupdate, hqk] at h
        rcases h with h | h
        · exact Or.inr (by simp [h])
        · rcases ih h with h' | h'
          · exact Or.inl h'
          · exact Or.inr (List.mem_cons_of_mem _ h')

theorem aupdate_map_fst_of_none {α β : Type} [DecidableEq α]
    {l : List (α × β)} {k : α} (v : β) (h : alookup l k = none) :
    (aupdate l k v).map Prod.fst = l.map Prod.fst ++ [k] := by
  induction l with
  | nil => simp [aupdate]
  | cons p rest ih =>
      obtain ⟨pk, pv⟩ := p
      by_cases hpk : pk = k
      · simp [alookup, hpk] at h
      · simp [alookup, hpk] at h
        simp [aupdate, hpk, ih h]

theorem aupdate_map_fst_of_some {α β : Type} [DecidableEq α]
    {l : List (α × β)} {k : α} {w : β} (v : β) (h : alookup l k = some w) :
    (aupdate l k v).map Prod.fst = l.map Prod.fst := by
  induction l with
  | nil => simp [alookup] at h
  | cons p rest ih =>
      obtain ⟨pk, pv⟩ := p
      by_cases hpk : pk = k
      · subst hpk
        simp [aupdate]
      · simp [alookup, hpk] at h
        simp [aupdate, hpk, ih h]

theorem alookup_isSome_iff_mem {α β : Type} [DecidableEq α]
    (l : List (α × β)) (k : α) :
    (alookup l k).isSome ↔ k ∈ l.map Prod.fst := by
  induction l with
  | nil => simp [alookup]
  | cons p rest ih =>
      obtain ⟨pk, pv⟩ := p
      by_cases hpk : pk = k
      · subst hpk
        simp [alookup]
      · have hkp : ¬ k = pk := fun h => hpk h.symm
        simp [alookup, hpk, hkp, ih]


theorem invokedLockedAux_true_of_ne_nil (l : List Entry) (rest : List PEv)
    (h : l ≠ []) : invokedLockedAux true (l.map PEv.invoke ++ rest) = true := by
  cases l with
  | nil => exact absurd rfl h
  | cons e es => simp [invokedLockedAux]

theorem getLast?_cons_concat {α : Type} (a b : α) (l : List α) :
    (a :: (l ++ [b])).getLast? = some b := by
  rw [← List.cons_append]
  exact List.getLast?_concat _

/-! ### Basic dispatch lemmas -/

theorem processSignal_eq_of_none {s : Sig} {st : TrapState}
    (h : alookup st.cbsList s = none) : processSignal s st = (st, []) := by
  simp [processSignal, h]

theorem processSignal_nonterm_state {s : Sig} (st : TrapState)
    (h : isTermClass s = false) : (processSignal s st).1 = st := by
  unfold processSignal
  cases halt : alookup st.cbsList s <;> simp [h]

theorem aupdate_map_snd_of_none {α β : Type} [DecidableEq α]
    {l : List (α × β)} {k : α} (v : β) (h : alookup l k = none) :
    (aupdate l k v).map Prod.snd = l.map Prod.snd ++ [v] := by
  induction l with
  | nil => simp [aupdate]
  | cons p rest ih =>
      obtain ⟨pk, pv⟩ := p
      by_cases hpk : pk = k
      · simp [alookup, hpk] at h
      · simp [alookup, hpk] at h
        simp [aupdate, hpk, ih h]

theorem alookup_nat_eq_none_of_lt {β : Type} {l : List (Nat × β)} {n : Nat}
    (hb : ∀ p ∈ l, p.1 < n) : alookup l n = none := by
  cases hl : alookup l n with
  | none => rfl
  | some v =>
      have := hb _ (alookup_mem hl)
      simp at this

theorem alookup_inj_of_snd_nodup {α : Type} [DecidableEq α] :
    ∀ {l : List (α × Nat)}, (l.map Prod.snd).Nodup → ∀ {k1 k2 : α} {v : Nat},
    alookup l k1 = some v → alookup l k2 = some v → k1 = k2 := by
  intro l
  induction l with
  | nil =>
      intro _ k1 k2 v h1 _
      simp [alookup] at h1
  | cons p rest ih =>
      intro hnd k1 k2 v h1 h2
      obtain ⟨pk, pv⟩ := p
      simp only [List.map_cons, List.nodup_cons] at hnd
      by_cases ha : pk = k1 <;> by_cases hb : pk = k2
      · rw [← ha, ← hb]
      · simp only [alookup, if_pos ha, Option.some.injEq] at h1
        simp only [alookup, if_neg hb] at h2
        subst h1
        exact absurd (List.mem_map.mpr ⟨(k2, pv), alookup_mem h2, rfl⟩) hnd.1
      · simp only [alookup, if_pos hb, Option.some.injEq] at h2
        simp only [alookup, if_neg ha] at h1
        subst h2
        exact absurd (List.mem_map.mpr ⟨(k1, pv), alookup_mem h1, rfl⟩) hnd.1
      · simp only [alookup, if_neg ha] at h1
        simp only [alookup, if_neg hb] at h2
        exact ih hnd.2 h1 h2

theorem aupdate_snd_nodup_of_bound {α : Type} [DecidableEq α] :
    ∀ (l : List (α × Nat)) (k : α) (v : Nat),
    (l.map Prod.snd).Nodup → (∀ p ∈ l, p.2 < v) →
    ((aupdate l k v).map Prod.snd).Nodup := by
  intro l
  induction l with
  | nil =>
      intro k v _ _
      simp [aupdate]
  | cons p rest ih =>
      intro k v h1 h2
      obtain ⟨pk, pv⟩ := p
      simp only [List.map_cons, List.nodup_cons] at h1
      by_cases hpk : pk = k
      · simp only [aupdate, if_pos hpk, List.map_cons, List.nodup_cons]
        refine ⟨?_, h1.2⟩
        intro hv
        obtain ⟨q, hq, hqv⟩ := List.mem_map.mp hv
        have := h2 q (List.mem_cons_of_mem _ hq)
        omega
      · simp only [aupdate, if_neg hpk, List.map_cons, List.nodup_cons]
        refine ⟨?_, ih k v h1.2 (fun q hq => h2 q (List.mem_cons_of_mem _ hq))⟩
        intro hv
        obtain ⟨q, hq, hqv⟩ := List.mem_map.mp hv
        rcases mem_aupdate hq with rfl | hq'
        · have := h2 (pk, pv) (List.mem_cons_self _ _)
          simp only at hqv
          omega
        · exact h1.1 (hqv ▸ List.mem_map.mpr ⟨q, hq', rfl⟩)

theorem aupdate_mem_bound {α : Type} [DecidableEq α] {l : List (α × Nat)}
    {k : α} {v m : Nat} (h2 : ∀ p ∈ l, p.2 < m) (hv : v < m) :
    ∀ p ∈ aupdate l k v, p.2 < m := by
  intro p hp
  rcases mem_aupdate hp with rfl | hp'
  · exact hv
  · exact h2 p hp'

theorem aupdate_fst_mem_bound {β : Type} {l : List (Nat × β)}
    {k : Nat} {v : β} {m : Nat} (h2 : ∀ p ∈ l, p.1 < m) (hk : k < m) :
    ∀ p ∈ aupdate l k v, p.1 < m := by
  intro p hp
  rcases mem_aupdate hp with rfl | hp'
  · exact hk
  · exact h2 p hp'

theorem aupdate_fst_nodup {α β : Type} [DecidableEq α] {l : List (α × β)}
    {k : α} (v : β) (h : (l.map Prod.fst).Nodup) :
    ((aupdate l k v).map Prod.fst).Nodup := by
  cases halt : alookup l k with
  | none =>
      rw [aupdate_map_fst_of_none v halt]
      have hk : k ∉ l.map Prod.fst := by
        rw [← alookup_isSome_iff_mem, halt]
        simp
      simp [List.nodup_append, hk, h]
  | some w =>
      rw [aupdate_map_fst_of_some v halt]
      exact h

/-! ### Effect of the operations on the registry view -/

/-- Invocations of one dispatch are exactly the reverse of the current
list. -/
theorem processSignal_snd (s : Sig) (st : TrapState) :
    (processSignal s st).2 = ((listFor st s).getD []).reverse := by
  unfold processSignal listFor
  cases halt : alookup st.cbsList s <;> simp

/-- Registration appends the callback, as a fresh entry, at the back of the
signal's list (creating the list when absent). -/
theorem listFor_OnSignal_self (sig : Sig) (cb : Nat) (st : TrapState) :
    listFor (OnSignal sig cb st).2 sig =
      some ((listFor st sig).getD [] ++ [⟨st.nextE, cb⟩]) := by
  unfold OnSignal listFor
  cases halt : alookup st.cbsList sig with
  | none => simp [alookup_aupdate]
  | some lid => simp [halt, alookup_aupdate]

/-- The map entry for the registered signal points at the remover's captured
list id. -/
theorem cbsList_OnSignal_self (sig : Sig) (cb : Nat) (st : TrapState) :
    alookup (OnSignal sig cb st).2.cbsList sig = some (OnSignal sig cb st).1.lid := by
  unfold OnSignal
  cases halt : alookup st.cbsList sig with
  | none => simp [alookup_aupdate]
  | some lid => simp [halt]

/-- Registration does not change the map entry of any other signal. -/
theorem cbsList_OnSignal_ne (sig : Sig) (cb : Nat) (st : TrapState)
    {s' : Sig} (h : s' ≠ sig) :
    alookup (OnSignal sig cb st).2.cbsList s' = alookup st.cbsList s' := by
  unfold OnSignal
  cases halt : alookup st.cbsList sig with
  | none => simp [alookup_aupdate_ne _ _ _ _ (fun hk => h hk.symm)]
  | some lid => simp

/-- The element id of the returned remover is the pre-registration value of
the fresh-entry counter, and the counter advances by one. -/
theorem OnSignal_fresh (sig : Sig) (cb : Nat) (st : TrapState) :
    (OnSignal sig cb st).1.eid = st.nextE ∧
      (OnSignal sig cb st).2.nextE = st.nextE + 1 ∧
      st.nextL ≤ (OnSignal sig cb st).2.nextL := by
  unfold OnSignal
  cases halt : alookup st.cbsList sig <;> simp

/-- In a well-formed state, registration for one signal leaves every other
signal's list untouched. -/
theorem listFor_OnSignal_ne (sig : Sig) (cb : Nat) (st : TrapState)
    (h : WF st) {s' : Sig} (hne : s' ≠ sig) :
    listFor (OnSignal sig cb st).2 s' = listFor st s' := by
  obtain ⟨-, h2, h3, -, h5, -, -, -⟩ := h
  unfold OnSignal listFor
  cases halt : alookup st.cbsList sig with
  | none =>
      rw [alookup_aupdate_ne _ _ _ _ (fun hk => hne hk.symm)]
      cases hs' : alookup st.cbsList s' with
      | none => simp
      | some lid' =>
          have hlt : lid' < st.nextL := h3 _ (alookup_mem hs')
          simp [alookup_aupdate_ne _ _ _ _ (by omega : st.nextL ≠ lid')]
  | some lid =>
      simp only
      cases hs' : alookup st.cbsList s' with
      | none => simp
      | some lid' =>
          have : lid' ≠ lid := by
            intro hEq
            exact hne (alookup_inj_of_snd_nodup h2 hs' (hEq ▸ halt))
          simp [alookup_aupdate_ne _ _ _ _ (fun hk => this hk.symm)]

/-! ### Preservation of well-formedness -/

theorem WF_initState : WF initState := by
  unfold WF initState
  refine ⟨by simp, by simp, by simp, by simp, by simp, by simp, by simp, by simp⟩

theorem WF_OnSignal (sig : Sig) (cb : Nat) {st : TrapState} (h : WF st) :
    WF (OnSignal sig cb st).2 := by
  unfold WF at h
  obtain ⟨h1, h2, h3, h4, h5, h6, h7, h8⟩ := h
  unfold OnSignal
  cases halt : alookup st.cbsList sig with
  | some lid =>
      have hmem : (sig, lid) ∈ st.cbsList := alookup_mem halt
      obtain ⟨l0, hl0⟩ := Option.isSome_iff_exists.mp (h8 _ hmem)
      have hheapmem : (lid, l0) ∈ st.heap := alookup_mem hl0
      simp only [hl0, Option.getD_some]
      unfold WF
      refine ⟨h1, h2, h3, aupdate_fst_nodup _ h4,
        aupdate_fst_mem_bound h5 (h5 _ hheapmem), ?_, ?_, ?_⟩
      · intro p hp e he
        rcases mem_aupdate hp with rfl | hp'
        · simp only at he
          rcases List.mem_append.mp he with he' | he'
          · exact Nat.lt_succ_of_lt (h6 _ hheapmem e he')
          · simp at he'
            simp [he']
        · exact Nat.lt_succ_of_lt (h6 _ hp' e he)
      · intro p hp
        rcases mem_aupdate hp with rfl | hp'
        · simp only [List.map_append, List.map_cons, List.map_nil]
          rw [List.nodup_append]
          refine ⟨h7 _ hheapmem, List.nodup_singleton _, ?_⟩
          intro a ha hb
          simp only [List.mem_singleton] at hb
          obtain ⟨e, he, heq⟩ := List.mem_map.mp ha
          have := h6 _ hheapmem e he
          omega
        · exact h7 _ hp'
      · intro p hp
        rw [alookup_aupdate]
        split
        · simp
        · exact h8 _ hp
  | none =>
      unfold WF
      have hbound3 : ∀ p ∈ st.cbsList, p.2 < st.nextL + 1 :=
        fun p hp => Nat.lt_succ_of_lt (h3 p hp)
      have hbound5 : ∀ p ∈ st.heap, p.1 < st.nextL + 1 :=
        fun p hp => Nat.lt_succ_of_lt (h5 p hp)
      refine ⟨aupdate_fst_nodup _ h1, aupdate_snd_nodup_of_bound _ _ _ h2 h3,
        aupdate_mem_bound hbound3 (Nat.lt_succ_self _),
        aupdate_fst_nodup _ h4,
        aupdate_fst_mem_bound hbound5 (Nat.lt_succ_self _), ?_, ?_, ?_⟩
      · intro p hp e he
        rcases mem_aupdate hp with rfl | hp'
        · simp only at he
          simp only [List.mem_singleton] at he
          simp [he]
        · exact Nat.lt_succ_of_lt (h6 _ hp' e he)
      · intro p hp
        rcases mem_aupdate hp with rfl | hp'
        · simp
        · exact h7 _ hp'
      · intro p hp
        rcases mem_aupdate hp with rfl | hp'
        · simp [alookup_aupdate_self]
        · have hne : st.nextL ≠ p.2 := by
            have := h3 _ hp'
            omega
          rw [alookup_aupdate_ne _ _ _ _ hne]
          exact h8 _ hp'

theorem WF_removeEntry (r : Remover) {st : TrapState} (h : WF st) :
    WF (removeEntry r st) := by
  unfold removeEntry
  cases hh : alookup st.heap r.lid with
  | none => exact h
  | some entries =>
      unfold WF at h
      obtain ⟨h1, h2, h3, h4, h5, h6, h7, h8⟩ := h
      have hheapmem : (r.lid, entries) ∈ st.heap := alookup_mem hh
      unfold WF
      refine ⟨h1, h2, h3, aupdate_fst_nodup _ h4,
        aupdate_fst_mem_bound h5 (h5 _ hheapmem), ?_, ?_, ?_⟩
      · intro p hp e he
        rcases mem_aupdate hp with rfl | hp'
        · simp only at he
          exact h6 _ hheapmem e (List.mem_of_mem_filter he)
        · exact h6 _ hp' e he
      · intro p hp
        rcases mem_aupdate hp with rfl | hp'
        · exact List.Nodup.sublist
            (List.Sublist.map _ (List.filter_sublist _)) (h7 _ hheapmem)
        · exact h7 _ hp'
      · intro p hp
        rw [alookup_aupdate]
        split
        · simp
        · exact h8 _ hp

theorem WF_truncateTermLists {st : TrapState} (h : WF st) :
    WF (truncateTermLists st) := by
  unfold WF at h
  obtain ⟨h1, h2, h3, h4, h5, h6, h7, h8⟩ := h
  unfold truncateTermLists WF
  dsimp only
  have hb1 : ∀ p ∈ st.cbsList, p.2 < st.nextL + 1 :=
    fun p hp => Nat.lt_succ_of_lt (h3 p hp)
  have hn1 : ((aupdate st.cbsList Sig.SIGKILL st.nextL).map Prod.snd).Nodup :=
    aupdate_snd_nodup_of_bound _ _ _ h2 h3
  have hb2 : ∀ p ∈ aupdate st.cbsList Sig.SIGKILL st.nextL, p.2 < st.nextL + 1 :=
    aupdate_mem_bound hb1 (Nat.lt_succ_self _)
  have hn2 : ((aupdate (aupdate st.cbsList Sig.SIGKILL st.nextL) Sig.SIGINT
      (st.nextL + 1)).map Prod.snd).Nodup :=
    aupdate_snd_nodup_of_bound _ _ _ hn1 hb2
  have hb3 : ∀ p ∈ aupdate (aupdate st.cbsList Sig.SIGKILL st.nextL) Sig.SIGINT
      (st.nextL + 1), p.2 < st.nextL + 2 :=
    aupdate_mem_bound (fun p hp => Nat.lt_succ_of_lt (hb2 p hp)) (by omega)
  have hn3 := aupdate_snd_nodup_of_bound _ Sig.SIGQUIT _ hn2 hb3
  refine ⟨aupdate_fst_nodup _ (aupdate_fst_nodup _ (aupdate_fst_nodup _ h1)),
    hn3, ?_, aupdate_fst_nodup _ (aupdate_fst_nodup _ (aupdate_fst_nodup _ h4)),
    ?_, ?_, ?_, ?_⟩
  · refine aupdate_mem_bound ?_ (by omega)
    refine aupdate_mem_bound ?_ (by omega)
    refine aupdate_mem_bound ?_ (by omega)
    exact fun p hp => by
      have := h3 p hp
      omega
  · refine aupdate_fst_mem_bound ?_ (by omega)
    refine aupdate_fst_mem_bound ?_ (by omega)
    refine aupdate_fst_mem_bound ?_ (by omega)
    exact fun p hp => by
      have := h5 p hp
      omega
  · intro p hp e he
    rcases mem_aupdate hp with rfl | hp'
    · simp at he
    rcases mem_aupdate hp' with rfl | hp''
    · simp at he
    rcases mem_aupdate hp'' with rfl | hp3
    · simp at he
    exact h6 _ hp3 e he
  · intro p hp
    rcases mem_aupdate hp with rfl | hp'
    · simp
    rcases mem_aupdate hp' with rfl | hp''
    · simp
    rcases mem_aupdate hp'' with rfl | hp3
    · simp
    exact h7 _ hp3
  · intro p hp
    rcases mem_aupdate hp with rfl | hp'
    · simp [alookup_aupdate_self]
    rcases mem_aupdate hp' with rfl | hp''
    · rw [alookup_aupdate_ne _ _ _ _ (by omega), alookup_aupdate_self]
      simp
    rcases mem_aupdate hp'' with rfl | hp3
    · rw [alookup_aupdate_ne _ _ _ _ (by omega),
        alookup_aupdate_ne _ _ _ _ (by omega), alookup_aupdate_self]
      simp
    · have hplt : p.2 < st.nextL := h3 _ hp3
      rw [alookup_aupdate_ne _ _ _ _ (by omega),
        alookup_aupdate_ne _ _ _ _ (by omega),
        alookup_aupdate_ne _ _ _ _ (by omega)]
      exact h8 _ hp3

theorem WF_processSignal (s : Sig) {st : TrapState} (h : WF st) :
    WF (processSignal s st).1 := by
  unfold processSignal
  cases halt : alookup st.cbsList s with
  | none => exact h
  | some lid =>
      simp only
      split
      · exact WF_truncateTermLists h
      · exact h

/-! ### Effect of removers -/

theorem removeEntry_cbsList (r : Remover) (st : TrapState) :
    (removeEntry r st).cbsList = st.cbsList := by
  unfold removeEntry
  cases hh : alookup st.heap r.lid <;> rfl

/-- Invoking a remover whose captured list is not (or no longer) referenced
by the signal map entry of `s` leaves the list of `s` unchanged. -/
theorem listFor_removeEntry_of_ne (r : Remover) (st : TrapState) (s : Sig)
    (h : alookup st.cbsList s ≠ some r.lid) :
    listFor (removeEntry r st) s = listFor st s := by
  unfold removeEntry listFor
  cases hh : alookup st.heap r.lid with
  | none => rfl
  | some entries =>
      cases hcb : alookup st.cbsList s with
      | none => simp
      | some lid' =>
          have hne : lid' ≠ r.lid := fun he => h (by rw [hcb, he])
          simp [alookup_aupdate_ne _ _ _ _ (fun hk => hne hk.symm)]

/-- Invoking a remover on the list its signal still references filters out
exactly the entries with the captured element id. -/
theorem listFor_removeEntry_self (r : Remover) (st : TrapState) (s : Sig)
    (h : alookup st.cbsList s = some r.lid) :
    (listFor (removeEntry r st) s).getD [] =
      ((listFor st s).getD []).filter (fun e => e.eid ≠ r.eid) := by
  unfold removeEntry listFor
  cases hh : alookup st.heap r.lid with
  | none => simp [h, hh]
  | some entries => simp [h, hh, alookup_aupdate_self]

theorem listFor_eid_lt {st : TrapState} (h : WF st) (s : Sig) :
    ∀ e ∈ (listFor st s).getD [], e.eid < st.nextE := by
  obtain ⟨-, -, -, -, -, h6, -, -⟩ := h
  unfold listFor
  cases hcb : alookup st.cbsList s with
  | none => simp
  | some lid =>
      cases hh : alookup st.heap lid with
      | none => simp [hh]
      | some l' =>
          simp only [hh, Option.getD_some]
          exact fun e he => h6 (lid, l') (alookup_mem hh) e he

theorem filter_ne_eid_eq_self {l : List Entry} {n : Nat}
    (h : ∀ e ∈ l, e.eid < n) : l.filter (fun e => e.eid ≠ n) = l := by
  apply List.filter_eq_self.mpr
  intro e he
  simp only [ne_eq, decide_not, Bool.not_eq_true', decide_eq_false_iff_not]
  exact Nat.ne_of_lt (h e he)

theorem filter_append_new {l : List Entry} {n cb : Nat}
    (h : ∀ e ∈ l, e.eid < n) :
    ((l ++ [Entry.mk n cb]).filter fun e => e.eid ≠ n) = l := by
  rw [List.filter_append, filter_ne_eid_eq_self h]
  simp

theorem aupdate_aupdate_self {α β : Type} [DecidableEq α]
    (l : List (α × β)) (k : α) (v w : β) :
    aupdate (aupdate l k v) k w = aupdate l k w := by
  induction l with
  | nil => simp [aupdate]
  | cons p rest ih =>
      obtain ⟨pk, pv⟩ := p
      by_cases hpk : pk = k
      · simp [aupdate, hpk]
      · simp [aupdate, hpk, ih]

/-- Calling a remover a second time is a no-op: the filtered list is a fixed
point of the same filter. -/
theorem removeEntry_idem (r : Remover) (st : TrapState) :
    removeEntry r (removeEntry r st) = removeEntry r st := by
  cases hh : alookup st.heap r.lid with
  | none =>
      have h1 : removeEntry r st = st := by
        unfold removeEntry
        rw [hh]
      rw [h1, h1]
  | some entries =>
      have h1 : removeEntry r st = { st with
          heap := aupdate st.heap r.lid
            (entries.filter fun e => e.eid ≠ r.eid) } := by
        unfold removeEntry
        rw [hh]
      rw [h1]
      unfold removeEntry
      rw [alookup_aupdate_self]
      simp only
      rw [aupdate_aupdate_self]
      have hfix : ((entries.filter fun e => e.eid ≠ r.eid).filter
          fun e => e.eid ≠ r.eid) = entries.filter fun e => e.eid ≠ r.eid := by
        apply List.filter_eq_self.mpr
        intro e he
        exact (List.mem_filter.mp he).2
      rw [hfix]

theorem processSignal_term_state {t : Sig} {st : TrapState}
    (ht : isTermClass t = true) (hsome : (alookup st.cbsList t).isSome) :
    (processSignal t st).1 = truncateTermLists st := by
  obtain ⟨lid, hlid⟩ := Option.isSome_iff_exists.mp hsome
  unfold processSignal
  rw [hlid]
  simp [ht]

theorem truncate_cbsList_lookup (st : TrapState) (s : Sig) :
    alookup (truncateTermLists st).cbsList s =
      if Sig.SIGQUIT = s then some (st.nextL + 2)
      else if Sig.SIGINT = s then some (st.nextL + 1)
      else if Sig.SIGKILL = s then some st.nextL
      else alookup st.cbsList s := by
  unfold truncateTermLists
  dsimp only
  rw [alookup_aupdate, alookup_aupdate, alookup_aupdate]

theorem listFor_truncate_term (st : TrapState) {t : Sig}
    (ht : isTermClass t = true) :
    listFor (truncateTermLists st) t = some [] := by
  have hk0 : alookup (truncateTermLists st).heap st.nextL = some [] := by
    unfold truncateTermLists
    dsimp only
    rw [alookup_aupdate_ne _ _ _ _ (by omega),
      alookup_aupdate_ne _ _ _ _ (by omega), alookup_aupdate_self]
  have hk1 : alookup (truncateTermLists st).heap (st.nextL + 1) = some [] := by
    unfold truncateTermLists
    dsimp only
    rw [alookup_aupdate_ne _ _ _ _ (by omega), alookup_aupdate_self]
  have hk2 : alookup (truncateTermLists st).heap (st.nextL + 2) = some [] := by
    unfold truncateTermLists
    dsimp only
    rw [alookup_aupdate_self]
  unfold listFor
  rw [truncate_cbsList_lookup]
  cases t with
  | SIGKILL => simp [hk0]
  | SIGINT => simp [hk1]
  | SIGQUIT => simp [hk2]
  | SIGUSR1 => simp [isTermClass] at ht
  | other n => simp [isTermClass] at ht

/-- The trace of one dispatch in closed form: one critical section holding
truncation (when it happens) and then the invocations. -/
theorem processSignalTrace_shape (s : Sig) (st : TrapState) :
    processSignalTrace s st =
      PEv.lockAcquire ::
        ((if isTermClass s && (alookup st.cbsList s).isSome then
            [PEv.truncateTerm] else []) ++
          (processSignal s st).2.map PEv.invoke ++ [PEv.lockRelease]) := by
  unfold processSignalTrace processSignal
  cases halt : alookup st.cbsList s <;> cases ht : isTermClass s <;> simp [ht]

theorem drain_cons (st : TrapState) (s : Sig) (rest : List Sig) :
    drain st (s :: rest) =
      ((drain (processSignal s st).1 rest).1,
       (processSignal s st).2 ++ (drain (processSignal s st).1 rest).2) := rfl

theorem processSignal_of_termEmpty {st : TrapState}
    (hempty : ∀ t, isTermClass t = true → listFor st t = some [])
    {s : Sig} (hs : isTermClass s = true) :
    (processSignal s st).2 = [] ∧
      (∀ t, isTermClass t = true →
        listFor (processSignal s st).1 t = some []) := by
  have hl := hempty s hs
  unfold listFor at hl
  cases hcb : alookup st.cbsList s with
  | none =>
      rw [hcb] at hl
      simp at hl
  | some lid =>
      constructor
      · rw [processSignal_snd, hempty s hs]
        simp
      · intro t ht
        rw [processSignal_term_state hs (by rw [hcb]; simp)]
        exact listFor_truncate_term st ht

theorem drain_of_termEmpty : ∀ (sigs : List Sig) (st : TrapState),
    (∀ t, isTermClass t = true → listFor st t = some []) →
    (∀ s ∈ sigs, isTermClass s = true) → (drain st sigs).2 = [] := by
  intro sigs
  induction sigs with
  | nil =>
      intro st _ _
      simp [drain]
  | cons s rest ih =>
      intro st hempty hterm
      have hs := hterm s (List.mem_cons_self _ _)
      obtain ⟨h2, hempty'⟩ := processSignal_of_termEmpty hempty hs
      rw [drain_cons]
      simp only [h2, List.nil_append]
      exact ih _ hempty' (fun x hx => hterm x (List.mem_cons_of_mem _ hx))

theorem drain_term_nodup : ∀ (sigs : List Sig) (st : TrapState), WF st →
    (∀ s ∈ sigs, isTermClass s = true) →
    ((drain st sigs).2.map Entry.eid).Nodup := by
  intro sigs
  induction sigs with
  | nil =>
      intro st _ _
      simp [drain]
  | cons s rest ih =>
      intro st h hterm
      have hs := hterm s (List.mem_cons_self _ _)
      rw [drain_cons]
      simp only
      cases hcb : alookup st.cbsList s with
      | none =>
          rw [processSignal_eq_of_none hcb]
          simp only [List.nil_append]
          exact ih st h (fun x hx => hterm x (List.mem_cons_of_mem _ hx))
      | some lid =>
          have hstate : (processSignal s st).1 = truncateTermLists st :=
            processSignal_term_state hs (by rw [hcb]; simp)
          have hrest : (drain (processSignal s st).1 rest).2 = [] := by
            rw [hstate]
            exact drain_of_termEmpty rest _
              (fun t ht => listFor_truncate_term st ht)
              (fun x hx => hterm x (List.mem_cons_of_mem _ hx))
          rw [hrest, List.append_nil, processSignal_snd, List.map_reverse,
            List.nodup_reverse]
          unfold listFor
          rw [hcb]
          cases hh : alookup st.heap lid with
          | none => simp [hh]
          | some l' =>
              simp only [hh, Option.getD_some]
              have h' := h
              unfold WF at h'
              obtain ⟨-, -, -, -, -, -, h7, -⟩ := h'
              exact h7 _ (alookup_mem hh)

/-- In a dispatch of a termination-class signal, the truncation event
precedes every callback invocation of the trace. -/
theorem truncate_before_invoke {s : Sig} (st : TrapState)
    (hs : isTermClass s = true) :
    ∀ tr1 tr2 e, processSignalTrace s st = tr1 ++ PEv.invoke e :: tr2 →
      PEv.truncateTerm ∈ tr1 := by
  intro tr1 tr2 e hdec
  cases hcb : alookup st.cbsList s with
  | none =>
      have htr : processSignalTrace s st =
          [PEv.lockAcquire, PEv.lockRelease] := by
        unfold processSignalTrace
        rw [hcb]
      rw [htr] at hdec
      have hm : PEv.invoke e ∈ ([PEv.lockAcquire, PEv.lockRelease] : List PEv) := by
        rw [hdec]
        simp
      simp at hm
  | some lid =>
      have htr : processSignalTrace s st =
          PEv.lockAcquire :: PEv.truncateTerm ::
            (((alookup st.heap lid).getD []).reverse.map PEv.invoke ++
              [PEv.lockRelease]) := by
        unfold processSignalTrace
        rw [hcb]
        simp [hs]
      rw [htr] at hdec
      cases tr1 with
      | nil =>
          simp only [List.nil_append, List.cons.injEq] at hdec
          exact absurd hdec.1.symm (by simp)
      | cons a tr1' =>
          simp only [List.cons_append, List.cons.injEq] at hdec
          cases tr1' with
          | nil =>
              simp only [List.nil_append, List.cons.injEq] at hdec
              exact absurd hdec.2.1.symm (by simp)
          | cons b tr1'' =>
              simp only [List.cons_append, List.cons.injEq] at hdec
              rw [← hdec.2.1]
              simp

/-! ## Claims -/

/-- C10: dispatching a signal identity outside the termination class leaves
the registry state (every callback list included) unchanged, so a repeat
dispatch of the same identity invokes the same callbacks in the same order;
and dispatching an identity with no list is a complete no-op. -/
theorem C10_nonterm_dispatch_frame (s : Sig) (st : TrapState)
    (h : isTermClass s = false) :
    (processSignal s st).1 = st ∧
    (∀ s', listFor (processSignal s st).1 s' = listFor st s') ∧
    (processSignal s (processSignal s st).1).2 = (processSignal s st).2 ∧
    (alookup st.cbsList s = none → processSignal s st = (st, [])) := by
  have hst : (processSignal s st).1 = st := processSignal_nonterm_state st h
  refine ⟨hst, fun s' => by rw [hst], by rw [hst], fun hn => processSignal_eq_of_none hn⟩

/-- C10 witness: the reload identity `SIGUSR1`, dispatched on a state with
one reload registration, at the concrete input. -/
theorem C10_nonterm_dispatch_frame_witness :
    (processSignal .SIGUSR1 (OnReload 7 initState).2).1 = (OnReload 7 initState).2 ∧
    (∀ s', listFor (processSignal .SIGUSR1 (OnReload 7 initState).2).1 s' =
      listFor (OnReload 7 initState).2 s') ∧
    (processSignal .SIGUSR1 (processSignal .SIGUSR1 (OnReload 7 initState).2).1).2 =
      (processSignal .SIGUSR1 (OnReload 7 initState).2).2 ∧
    (alookup (OnReload 7 initState).2.cbsList .SIGUSR1 = none →
      processSignal .SIGUSR1 (OnReload 7 initState).2 = ((OnReload 7 initState).2, [])) :=
  C10_nonterm_dispatch_frame .SIGUSR1 (OnReload 7 initState).2 rfl

/-- C6 counterexample: with one callback registered for `SIGUSR1`, the
dispatch trace invokes that callback strictly between `mux.Lock()` and the
deferred `mux.Unlock()` — the registry's exclusive lock (the very lock
`OnSignal` takes for every registration, related identity or not) is held
during callback invocation, contradicting the claim that no callback runs
while that lock is held. -/
theorem C6_callback_runs_under_lock :
    invokedWhileLocked
      (processSignalTrace .SIGUSR1 (OnSignal .SIGUSR1 7 initState).2) = true := by
  decide

/-- C6 amended: every dispatch is one critical section: the trace starts
with `mux.Lock()`, ends with the deferred `mux.Unlock()`, callback
invocations (when any) happen with the lock held, and the truncation of the
termination class precedes every invocation inside that one critical
section. -/
theorem C6_dispatch_is_one_critical_section (s : Sig) (st : TrapState) :
    ((processSignalTrace s st).head? = some PEv.lockAcquire) ∧
    ((processSignalTrace s st).getLast? = some PEv.lockRelease) ∧
    ((processSignal s st).2 ≠ [] →
      invokedWhileLocked (processSignalTrace s st) = true) ∧
    (processSignalTrace s st =
      PEv.lockAcquire ::
        ((if isTermClass s && (alookup st.cbsList s).isSome then
            [PEv.truncateTerm] else []) ++
          (processSignal s st).2.map PEv.invoke ++ [PEv.lockRelease])) := by
  have h4 := processSignalTrace_shape s st
  refine ⟨by rw [h4]; rfl, ?_, fun hne => ?_, h4⟩
  · rw [h4]
    exact getLast?_cons_concat _ _ _
  · rw [invokedWhileLocked, h4]
    simp only [invokedLockedAux, List.append_assoc]
    cases hc : (isTermClass s && (alookup st.cbsList s).isSome) with
    | false =>
        simpa using invokedLockedAux_true_of_ne_nil _ _ hne
    | true =>
        simp only [if_pos, List.singleton_append, invokedLockedAux]
        exact invokedLockedAux_true_of_ne_nil _ _ hne

/-- C5: the termination coordinator exits nonzero exactly when it was
invoked while unwinding a fault; an exit event (always status 1, never 0)
is the last event of the trace — after every callback invocation and after
the dispatcher's completion token (`waitDone`); with no fault there is no
exit event at all, and the callbacks of the drain still run. -/
theorem C5_exit_iff_fault (faulted : Bool) (st : TrapState) (pending : List Sig) :
    ((∃ n, Ev.exitCode n ∈ (Deferrer faulted st pending).2 ∧ n ≠ 0) ↔ faulted = true) ∧
    (∀ n, Ev.exitCode n ∈ (Deferrer faulted st pending).2 →
      n = 1 ∧ (Deferrer faulted st pending).2.getLast? = some (Ev.exitCode 1)) ∧
    (Ev.waitDone ∈ (Deferrer faulted st pending).2) ∧
    (∀ e, Ev.invoke e ∈ (Deferrer faulted st pending).2 ↔
      e ∈ (drain st (pending ++ [Sig.SIGINT])).2) ∧
    (faulted = false → ∀ n, Ev.exitCode n ∉ (Deferrer faulted st pending).2) := by
  cases faulted with
  | false =>
      refine ⟨?_, ?_, ?_, ?_, ?_⟩
      · simp [Deferrer]
      · intro n hn
        simp [Deferrer] at hn
      · simp [Deferrer]
      · intro e
        simp [Deferrer]
      · intro _ n
        simp [Deferrer]
  | true =>
      refine ⟨?_, ?_, ?_, ?_, ?_⟩
      · simp [Deferrer]
      · intro n hn
        simp [Deferrer] at hn
        subst hn
        refine ⟨rfl, ?_⟩
        show (_ ++ [Ev.exitCode 1]).getLast? = _
        exact List.getLast?_concat _
      · simp [Deferrer]
      · intro e
        simp [Deferrer]
      · intro h
        exact absurd h (by simp)

/-- C5 witness: one reload registration, a fault in flight, no pending
signal. -/
theorem C5_exit_iff_fault_witness :
    ((∃ n, Ev.exitCode n ∈ (Deferrer true (OnReload 7 initState).2 []).2 ∧ n ≠ 0) ↔
      true = true) ∧
    (∀ n, Ev.exitCode n ∈ (Deferrer true (OnReload 7 initState).2 []).2 →
      n = 1 ∧ (Deferrer true (OnReload 7 initState).2 []).2.getLast? =
        some (Ev.exitCode 1)) ∧
    (Ev.waitDone ∈ (Deferrer true (OnReload 7 initState).2 []).2) ∧
    (∀ e, Ev.invoke e ∈ (Deferrer true (OnReload 7 initState).2 []).2 ↔
      e ∈ (drain (OnReload 7 initState).2 ([] ++ [Sig.SIGINT])).2) ∧
    (true = false → ∀ n, Ev.exitCode n ∉ (Deferrer true (OnReload 7 initState).2 []).2) :=
  C5_exit_iff_fault true (OnReload 7 initState).2 []

theorem invoke_injective : Function.Injective Ev.invoke :=
  fun _ _ h => by injection h

/-- C3 counterexample: a callback registered (via the general entry point)
only on the quit identity is a registered termination-class callback, yet on
a normal exit the coordinator's synthetic interrupt finds no interrupt list,
`processSignal` returns before truncating or invoking anything, and the
trace contains no invocation at all — the callback fires zero times, not
exactly once. -/
theorem C3_quit_only_callback_never_fires :
    listFor (OnSignal .SIGQUIT 0 initState).2 .SIGQUIT = some [⟨0, 0⟩] ∧
    (Deferrer false (OnSignal .SIGQUIT 0 initState).2 []).2 =
      [Ev.stopSignals, Ev.send .SIGINT, Ev.closeCh, Ev.waitDone] := by
  decide

/-- C3 amended: the coordinator unconditionally enqueues the synthetic
interrupt immediately before closing the channel, on both exit paths; this
guarantees that every callback registered on the *interrupt* identity fires
exactly once even when no external signal was ever delivered — but a
termination-class callback registered only on the quit or kill-class
identity is not invoked by it. -/
theorem C3_synthetic_interrupt_fires_interrupt_list (faulted : Bool)
    (st : TrapState) (h : WF st) :
    (∃ l1 l2, (Deferrer faulted st []).2 =
      l1 ++ [Ev.send .SIGINT, Ev.closeCh] ++ l2) ∧
    (∀ e ∈ (listFor st .SIGINT).getD [],
      (Deferrer faulted st []).2.count (Ev.invoke e) = 1) := by
  have hM : (drain st [Sig.SIGINT]).2 = (processSignal .SIGINT st).2 := by
    simp [drain]
  constructor
  · cases faulted with
    | false =>
        exact ⟨[Ev.stopSignals],
          (drain st ([] ++ [Sig.SIGINT])).2.map Ev.invoke ++ [Ev.waitDone],
          by simp [Deferrer]⟩
    | true =>
        exact ⟨[Ev.printPanic, Ev.printStack, Ev.stopSignals],
          (drain st ([] ++ [Sig.SIGINT])).2.map Ev.invoke ++
            [Ev.waitDone, Ev.exitCode 1],
          by simp [Deferrer]⟩
  · intro e he
    have hcnt : (Deferrer faulted st []).2.count (Ev.invoke e) =
        ((processSignal .SIGINT st).2).count e := by
      cases faulted <;>
        simp [Deferrer, hM, List.count_append, List.count_cons,
          List.count_map_of_injective _ Ev.invoke invoke_injective]
    rw [hcnt]
    cases halt : alookup st.cbsList .SIGINT with
    | none => simp [listFor, halt] at he
    | some lid =>
        cases hh : alookup st.heap lid with
        | none => simp [listFor, halt, hh] at he
        | some l' =>
            simp only [listFor, halt, hh, Option.getD_some] at he
            obtain ⟨-, -, -, -, -, -, h7, -⟩ := h
            have hnd : l'.Nodup :=
              List.Nodup.of_map Entry.eid (h7 (lid, l') (alookup_mem hh))
            have : (processSignal .SIGINT st).2 = l'.reverse := by
              simp [processSignal, halt, hh]
            rw [this]
            exact List.count_eq_one_of_mem (List.nodup_reverse.mpr hnd)
              (List.mem_reverse.mpr he)

/-- C3 witness: one `OnKill` registration (so the interrupt list is
populated), normal exit. -/
theorem C3_synthetic_interrupt_fires_interrupt_list_witness :
    (∃ l1 l2, (Deferrer false (OnKill 7 initState).2 []).2 =
      l1 ++ [Ev.send .SIGINT, Ev.closeCh] ++ l2) ∧
    (∀ e ∈ (listFor (OnKill 7 initState).2 .SIGINT).getD [],
      (Deferrer false (OnKill 7 initState).2 []).2.count (Ev.invoke e) = 1) :=
  C3_synthetic_interrupt_fires_interrupt_list false (OnKill 7 initState).2
    (by decide)

/-- C9: once the dispatcher loop has stopped, it stays stopped whatever
interleaving of deliveries and loop iterations follows, and no callback is
ever invoked again; moreover once the channel is closed a re-delivery
attempt is rejected and changes nothing. -/
theorem C9_stopped_loop_never_dispatches (acts : List Act) (ls : LoopState)
    (h : ls.mode = Mode.stopped) :
    (runActs ls acts).1.mode = Mode.stopped ∧ (runActs ls acts).2 = [] ∧
    (ls.closed = true → ∀ s, deliver s ls = ls) := by
  have hdel : ls.closed = true → ∀ s, deliver s ls = ls := by
    intro hc s
    simp [deliver, hc]
  have hmain : ∀ (acts' : List Act) (ls' : LoopState), ls'.mode = Mode.stopped →
      (runActs ls' acts').1.mode = Mode.stopped ∧ (runActs ls' acts').2 = [] := by
    intro acts'
    induction acts' with
    | nil =>
        intro ls' h'
        simpa [runActs] using h'
    | cons a rest ih =>
        intro ls' h'
        cases a with
        | give s =>
            have hm : (deliver s ls').mode = Mode.stopped := by
              unfold deliver
              split <;> simpa using h'
            simpa [runActs] using ih _ hm
        | step =>
            have hls : loopStep ls' = (ls', []) := by
              unfold loopStep
              rw [h']
            simpa [runActs, hls] using ih _ h'
  exact ⟨(hmain acts ls h).1, (hmain acts ls h).2, hdel⟩

/-- C9 witness: from the stopped, closed state a re-delivered interrupt and
two further loop iterations dispatch nothing. -/
theorem C9_stopped_loop_never_dispatches_witness :
    (runActs ⟨Mode.stopped, [], true, initState⟩
      [Act.give .SIGINT, Act.step, Act.step]).1.mode = Mode.stopped ∧
    (runActs ⟨Mode.stopped, [], true, initState⟩
      [Act.give .SIGINT, Act.step, Act.step]).2 = [] ∧
    ((⟨Mode.stopped, [], true, initState⟩ : LoopState).closed = true →
      ∀ s, deliver s ⟨Mode.stopped, [], true, initState⟩ =
        ⟨Mode.stopped, [], true, initState⟩) :=
  C9_stopped_loop_never_dispatches [Act.give .SIGINT, Act.step, Act.step]
    ⟨Mode.stopped, [], true, initState⟩ rfl

/-- C7: `OnKill` registers the same callback on the kill-class, quit and
interrupt identities (as three fresh entries appended to the respective
lists), leaves every other identity untouched, and the combined remover it
returns removes exactly those three registrations. -/
theorem C7_onkill_registers_and_removes_three (cb : Nat) (st : TrapState)
    (h : WF st) :
    (listFor (OnKill cb st).2 .SIGKILL =
      some ((listFor st .SIGKILL).getD [] ++ [Entry.mk st.nextE cb])) ∧
    (listFor (OnKill cb st).2 .SIGQUIT =
      some ((listFor st .SIGQUIT).getD [] ++ [Entry.mk (st.nextE + 1) cb])) ∧
    (listFor (OnKill cb st).2 .SIGINT =
      some ((listFor st .SIGINT).getD [] ++ [Entry.mk (st.nextE + 2) cb])) ∧
    (∀ s, s ≠ .SIGKILL → s ≠ .SIGQUIT → s ≠ .SIGINT →
      listFor (OnKill cb st).2 s = listFor st s) ∧
    (∀ s, (listFor (runRemovers (OnKill cb st).1 (OnKill cb st).2) s).getD [] =
      (listFor st s).getD []) := by
  have w1 : WF (OnSignal .SIGKILL cb st).2 := WF_OnSignal _ _ h
  have w2 : WF (OnSignal .SIGQUIT cb (OnSignal .SIGKILL cb st).2).2 :=
    WF_OnSignal _ _ w1
  have w3 : WF (OnSignal .SIGINT cb
      (OnSignal .SIGQUIT cb (OnSignal .SIGKILL cb st).2).2).2 :=
    WF_OnSignal _ _ w2
  have n1 : (OnSignal .SIGKILL cb st).2.nextE = st.nextE + 1 :=
    (OnSignal_fresh _ _ _).2.1
  have n2 : (OnSignal .SIGQUIT cb (OnSignal .SIGKILL cb st).2).2.nextE =
      st.nextE + 2 := by
    rw [(OnSignal_fresh _ _ _).2.1, n1]
  have e1 : (OnSignal .SIGKILL cb st).1.eid = st.nextE :=
    (OnSignal_fresh _ _ _).1
  have e2 : (OnSignal .SIGQUIT cb (OnSignal .SIGKILL cb st).2).1.eid =
      st.nextE + 1 := by
    rw [(OnSignal_fresh _ _ _).1, n1]
  have e3 : (OnSignal .SIGINT cb
      (OnSignal .SIGQUIT cb (OnSignal .SIGKILL cb st).2).2).1.eid =
      st.nextE + 2 := by
    rw [(OnSignal_fresh _ _ _).1, n2]
  have cj1 : listFor (OnKill cb st).2 .SIGKILL =
      some ((listFor st .SIGKILL).getD [] ++ [Entry.mk st.nextE cb]) := by
    show listFor (OnSignal .SIGINT cb _).2 .SIGKILL = _
    rw [listFor_OnSignal_ne _ _ _ w2 (by decide),
      listFor_OnSignal_ne _ _ _ w1 (by decide),
      listFor_OnSignal_self]
  have cj2 : listFor (OnKill cb st).2 .SIGQUIT =
      some ((listFor st .SIGQUIT).getD [] ++ [Entry.mk (st.nextE + 1) cb]) := by
    show listFor (OnSignal .SIGINT cb _).2 .SIGQUIT = _
    rw [listFor_OnSignal_ne _ _ _ w2 (by decide), listFor_OnSignal_self,
      listFor_OnSignal_ne _ _ _ h (by decide), n1]
  have cj3 : listFor (OnKill cb st).2 .SIGINT =
      some ((listFor st .SIGINT).getD [] ++ [Entry.mk (st.nextE + 2) cb]) := by
    show listFor (OnSignal .SIGINT cb _).2 .SIGINT = _
    rw [listFor_OnSignal_self, listFor_OnSignal_ne _ _ _ w1 (by decide),
      listFor_OnSignal_ne _ _ _ h (by decide), n2]
  have cj4 : ∀ s, s ≠ Sig.SIGKILL → s ≠ Sig.SIGQUIT → s ≠ Sig.SIGINT →
      listFor (OnKill cb st).2 s = listFor st s := by
    intro s hs1 hs2 hs3
    show listFor (OnSignal .SIGINT cb _).2 s = _
    rw [listFor_OnSignal_ne _ _ _ w2 hs3, listFor_OnSignal_ne _ _ _ w1 hs2,
      listFor_OnSignal_ne _ _ _ h hs1]
  refine ⟨cj1, cj2, cj3, cj4, ?_⟩
  have cK : alookup (OnKill cb st).2.cbsList .SIGKILL =
      some (OnSignal .SIGKILL cb st).1.lid := by
    show alookup (OnSignal .SIGINT cb _).2.cbsList .SIGKILL = _
    rw [cbsList_OnSignal_ne _ _ _ (by decide),
      cbsList_OnSignal_ne _ _ _ (by decide), cbsList_OnSignal_self]
  have cQ : alookup (OnKill cb st).2.cbsList .SIGQUIT =
      some (OnSignal .SIGQUIT cb (OnSignal .SIGKILL cb st).2).1.lid := by
    show alookup (OnSignal .SIGINT cb _).2.cbsList .SIGQUIT = _
    rw [cbsList_OnSignal_ne _ _ _ (by decide), cbsList_OnSignal_self]
  have cI : alookup (OnKill cb st).2.cbsList .SIGINT =
      some (OnSignal .SIGINT cb
        (OnSignal .SIGQUIT cb (OnSignal .SIGKILL cb st).2).2).1.lid := by
    show alookup (OnSignal .SIGINT cb _).2.cbsList .SIGINT = _
    rw [cbsList_OnSignal_self]
  have w3' := w3
  unfold WF at w3'
  obtain ⟨-, hsnd, -, -, -, -, -, -⟩ := w3'
  have hOK : (OnKill cb st).2 = (OnSignal .SIGINT cb
      (OnSignal .SIGQUIT cb (OnSignal .SIGKILL cb st).2).2).2 := rfl
  rw [← hOK] at hsnd
  have dKQ : (OnSignal .SIGKILL cb st).1.lid ≠
      (OnSignal .SIGQUIT cb (OnSignal .SIGKILL cb st).2).1.lid := by
    intro he
    have := alookup_inj_of_snd_nodup hsnd cK (he ▸ cQ)
    simp at this
  have dKI : (OnSignal .SIGKILL cb st).1.lid ≠
      (OnSignal .SIGINT cb
        (OnSignal .SIGQUIT cb (OnSignal .SIGKILL cb st).2).2).1.lid := by
    intro he
    have := alookup_inj_of_snd_nodup hsnd cK (he ▸ cI)
    simp at this
  have dQI : (OnSignal .SIGQUIT cb (OnSignal .SIGKILL cb st).2).1.lid ≠
      (OnSignal .SIGINT cb
        (OnSignal .SIGQUIT cb (OnSignal .SIGKILL cb st).2).2).1.lid := by
    intro he
    have := alookup_inj_of_snd_nodup hsnd cQ (he ▸ cI)
    simp at this
  have hrun : runRemovers (OnKill cb st).1 (OnKill cb st).2 =
      removeEntry (OnSignal .SIGINT cb
          (OnSignal .SIGQUIT cb (OnSignal .SIGKILL cb st).2).2).1
        (removeEntry (OnSignal .SIGQUIT cb (OnSignal .SIGKILL cb st).2).1
          (removeEntry (OnSignal .SIGKILL cb st).1 (OnKill cb st).2)) := rfl
  have boundK : ∀ e ∈ (listFor st .SIGKILL).getD [], e.eid < st.nextE :=
    listFor_eid_lt h _
  have boundQ : ∀ e ∈ (listFor st .SIGQUIT).getD [], e.eid < st.nextE + 1 :=
    fun e he => Nat.lt_succ_of_lt (listFor_eid_lt h _ e he)
  have boundI : ∀ e ∈ (listFor st .SIGINT).getD [], e.eid < st.nextE + 2 :=
    fun e he => Nat.lt_succ_of_lt (Nat.lt_succ_of_lt (listFor_eid_lt h _ e he))
  intro s
  rw [hrun]
  by_cases hs1 : s = Sig.SIGKILL
  · subst hs1
    have step1 : (listFor (removeEntry (OnSignal .SIGKILL cb st).1
        (OnKill cb st).2) .SIGKILL).getD [] = (listFor st .SIGKILL).getD [] := by
      rw [listFor_removeEntry_self _ _ _ (cK), cj1]
      simp only [Option.getD_some]
      rw [e1]
      exact filter_append_new boundK
    have step2 : listFor (removeEntry (OnSignal .SIGQUIT cb
        (OnSignal .SIGKILL cb st).2).1 (removeEntry (OnSignal .SIGKILL cb st).1
          (OnKill cb st).2)) .SIGKILL =
        listFor (removeEntry (OnSignal .SIGKILL cb st).1 (OnKill cb st).2)
          .SIGKILL := by
      refine listFor_removeEntry_of_ne _ _ _ ?_
      rw [removeEntry_cbsList, cK]
      simp [dKQ]
    have step3 : listFor (removeEntry (OnSignal .SIGINT cb
        (OnSignal .SIGQUIT cb (OnSignal .SIGKILL cb st).2).2).1
        (removeEntry (OnSignal .SIGQUIT cb (OnSignal .SIGKILL cb st).2).1
          (removeEntry (OnSignal .SIGKILL cb st).1 (OnKill cb st).2))) .SIGKILL =
        listFor (removeEntry (OnSignal .SIGQUIT cb
          (OnSignal .SIGKILL cb st).2).1 (removeEntry
            (OnSignal .SIGKILL cb st).1 (OnKill cb st).2)) .SIGKILL := by
      refine listFor_removeEntry_of_ne _ _ _ ?_
      rw [removeEntry_cbsList, removeEntry_cbsList, cK]
      simp [dKI]
    rw [step3, step2, step1]
  by_cases hs2 : s = Sig.SIGQUIT
  · subst hs2
    have step1 : listFor (removeEntry (OnSignal .SIGKILL cb st).1
        (OnKill cb st).2) .SIGQUIT = listFor (OnKill cb st).2 .SIGQUIT := by
      refine listFor_removeEntry_of_ne _ _ _ ?_
      rw [cQ]
      simp only [ne_eq, Option.some.injEq]
      exact fun he => dKQ he.symm
    have step2 : (listFor (removeEntry (OnSignal .SIGQUIT cb
        (OnSignal .SIGKILL cb st).2).1 (removeEntry (OnSignal .SIGKILL cb st).1
          (OnKill cb st).2)) .SIGQUIT).getD [] =
        (listFor st .SIGQUIT).getD [] := by
      rw [listFor_removeEntry_self _ _ _ (by rw [removeEntry_cbsList, cQ]),
        step1, cj2]
      simp only [Option.getD_some]
      rw [e2]
      exact filter_append_new boundQ
    have step3 : listFor (removeEntry (OnSignal .SIGINT cb
        (OnSignal .SIGQUIT cb (OnSignal .SIGKILL cb st).2).2).1
        (removeEntry (OnSignal .SIGQUIT cb (OnSignal .SIGKILL cb st).2).1
          (removeEntry (OnSignal .SIGKILL cb st).1 (OnKill cb st).2))) .SIGQUIT =
        listFor (removeEntry (OnSignal .SIGQUIT cb
          (OnSignal .SIGKILL cb st).2).1 (removeEntry
            (OnSignal .SIGKILL cb st).1 (OnKill cb st).2)) .SIGQUIT := by
      refine listFor_removeEntry_of_ne _ _ _ ?_
      rw [removeEntry_cbsList, removeEntry_cbsList, cQ]
      simp [dQI]
    rw [step3, step2]
  by_cases hs3 : s = Sig.SIGINT
  · subst hs3
    have step1 : listFor (removeEntry (OnSignal .SIGKILL cb st).1
        (OnKill cb st).2) .SIGINT = listFor (OnKill cb st).2 .SIGINT := by
      refine listFor_removeEntry_of_ne _ _ _ ?_
      rw [cI]
      simp only [ne_eq, Option.some.injEq]
      exact fun he => dKI he.symm
    have step2 : listFor (removeEntry (OnSignal .SIGQUIT cb
        (OnSignal .SIGKILL cb st).2).1 (removeEntry (OnSignal .SIGKILL cb st).1
          (OnKill cb st).2)) .SIGINT =
        listFor (removeEntry (OnSignal .SIGKILL cb st).1 (OnKill cb st).2)
          .SIGINT := by
      refine listFor_removeEntry_of_ne _ _ _ ?_
      rw [removeEntry_cbsList, cI]
      simp only [ne_eq, Option.some.injEq]
      exact fun he => dQI he.symm
    have step3 : (listFor (removeEntry (OnSignal .SIGINT cb
        (OnSignal .SIGQUIT cb (OnSignal .SIGKILL cb st).2).2).1
        (removeEntry (OnSignal .SIGQUIT cb (OnSignal .SIGKILL cb st).2).1
          (removeEntry (OnSignal .SIGKILL cb st).1 (OnKill cb st).2)))
            .SIGINT).getD [] = (listFor st .SIGINT).getD [] := by
      rw [listFor_removeEntry_self _ _ _
          (by rw [removeEntry_cbsList, removeEntry_cbsList, cI]),
        step2, step1, cj3]
      simp only [Option.getD_some]
      rw [e3]
      exact filter_append_new boundI
    rw [step3]
  · have hfr := cj4 s hs1 hs2 hs3
    have hne1 : alookup (OnKill cb st).2.cbsList s ≠
        some (OnSignal .SIGKILL cb st).1.lid := by
      cases hcs : alookup (OnKill cb st).2.cbsList s with
      | none => simp
      | some lid_s =>
          intro he
          injection he with he'
          exact hs1 (alookup_inj_of_snd_nodup hsnd
            (by rw [hcs, he']) cK)
    have hne2 : alookup (OnKill cb st).2.cbsList s ≠
        some (OnSignal .SIGQUIT cb (OnSignal .SIGKILL cb st).2).1.lid := by
      cases hcs : alookup (OnKill cb st).2.cbsList s with
      | none => simp
      | some lid_s =>
          intro he
          injection he with he'
          exact hs2 (alookup_inj_of_snd_nodup hsnd
            (by rw [hcs, he']) cQ)
    have hne3 : alookup (OnKill cb st).2.cbsList s ≠
        some (OnSignal .SIGINT cb
          (OnSignal .SIGQUIT cb (OnSignal .SIGKILL cb st).2).2).1.lid := by
      cases hcs : alookup (OnKill cb st).2.cbsList s with
      | none => simp
      | some lid_s =>
          intro he
          injection he with he'
          exact hs3 (alookup_inj_of_snd_nodup hsnd
            (by rw [hcs, he']) cI)
    rw [listFor_removeEntry_of_ne _ _ _
        (by rw [removeEntry_cbsList, removeEntry_cbsList]; exact hne3),
      listFor_removeEntry_of_ne _ _ _ (by rw [removeEntry_cbsList]; exact hne2),
      listFor_removeEntry_of_ne _ _ _ hne1, hfr]

/-- C7 witness: a concrete `OnKill` registration on a state already holding
one interrupt registration. -/
theorem C7_onkill_registers_and_removes_three_witness :
    (listFor (OnKill 9 (OnSignal .SIGINT 1 initState).2).2 .SIGKILL =
      some ((listFor (OnSignal .SIGINT 1 initState).2 .SIGKILL).getD [] ++
        [Entry.mk (OnSignal .SIGINT 1 initState).2.nextE 9])) ∧
    (listFor (OnKill 9 (OnSignal .SIGINT 1 initState).2).2 .SIGQUIT =
      some ((listFor (OnSignal .SIGINT 1 initState).2 .SIGQUIT).getD [] ++
        [Entry.mk ((OnSignal .SIGINT 1 initState).2.nextE + 1) 9])) ∧
    (listFor (OnKill 9 (OnSignal .SIGINT 1 initState).2).2 .SIGINT =
      some ((listFor (OnSignal .SIGINT 1 initState).2 .SIGINT).getD [] ++
        [Entry.mk ((OnSignal .SIGINT 1 initState).2.nextE + 2) 9])) ∧
    (∀ s, s ≠ .SIGKILL → s ≠ .SIGQUIT → s ≠ .SIGINT →
      listFor (OnKill 9 (OnSignal .SIGINT 1 initState).2).2 s =
        listFor (OnSignal .SIGINT 1 initState).2 s) ∧
    (∀ s, (listFor (runRemovers (OnKill 9 (OnSignal .SIGINT 1 initState).2).1
        (OnKill 9 (OnSignal .SIGINT 1 initState).2).2) s).getD [] =
      (listFor (OnSignal .SIGINT 1 initState).2 s).getD []) :=
  C7_onkill_registers_and_removes_three 9 (OnSignal .SIGINT 1 initState).2
    (by decide)

/-- C4: invoking the remover returned by a registration, before the signal
is ever dispatched, removes exactly that entry (entries holding an equal
callback value keep their place, and every other identity's list is
untouched), so the callback's entry is never invoked by a later dispatch of
any identity; invoking any remover a second time is a no-op on the state;
and after the termination class has been truncated, invoking the handle
leaves the reachable registry unchanged. -/
theorem C4_remover_semantics (sig : Sig) (cb : Nat) (st : TrapState)
    (h : WF st) :
    ((listFor (removeEntry (OnSignal sig cb st).1 (OnSignal sig cb st).2)
        sig).getD [] = (listFor st sig).getD []) ∧
    (∀ s', s' ≠ sig →
      listFor (removeEntry (OnSignal sig cb st).1 (OnSignal sig cb st).2) s' =
        listFor (OnSignal sig cb st).2 s') ∧
    (∀ s', ∀ e ∈ (processSignal s' (removeEntry (OnSignal sig cb st).1
        (OnSignal sig cb st).2)).2, e.eid ≠ (OnSignal sig cb st).1.eid) ∧
    (∀ st', removeEntry (OnSignal sig cb st).1
        (removeEntry (OnSignal sig cb st).1 st') =
      removeEntry (OnSignal sig cb st).1 st') ∧
    (isTermClass sig = true → ∀ t, isTermClass t = true →
      (alookup (OnSignal sig cb st).2.cbsList t).isSome →
      ∀ s', listFor (removeEntry (OnSignal sig cb st).1
          (processSignal t (OnSignal sig cb st).2).1) s' =
        listFor (processSignal t (OnSignal sig cb st).2).1 s') := by
  have wp : WF (OnSignal sig cb st).2 := WF_OnSignal _ _ h
  have wp' := wp
  unfold WF at wp'
  obtain ⟨-, hsnd, hbnd, -, -, -, -, -⟩ := wp'
  have hself : alookup (OnSignal sig cb st).2.cbsList sig =
      some (OnSignal sig cb st).1.lid := cbsList_OnSignal_self _ _ _
  have heid : (OnSignal sig cb st).1.eid = st.nextE := (OnSignal_fresh _ _ _).1
  have hbound : ∀ e ∈ (listFor st sig).getD [], e.eid < st.nextE :=
    listFor_eid_lt h _
  have c1 : (listFor (removeEntry (OnSignal sig cb st).1
      (OnSignal sig cb st).2) sig).getD [] = (listFor st sig).getD [] := by
    rw [listFor_removeEntry_self _ _ _ hself, listFor_OnSignal_self]
    simp only [Option.getD_some]
    rw [heid]
    exact filter_append_new hbound
  have c2 : ∀ s', s' ≠ sig →
      listFor (removeEntry (OnSignal sig cb st).1 (OnSignal sig cb st).2) s' =
        listFor (OnSignal sig cb st).2 s' := by
    intro s' hne
    refine listFor_removeEntry_of_ne _ _ _ ?_
    cases hcs : alookup (OnSignal sig cb st).2.cbsList s' with
    | none => simp
    | some lid' =>
        intro he
        injection he with he'
        exact hne (alookup_inj_of_snd_nodup hsnd (by rw [hcs, he']) hself)
  refine ⟨c1, c2, ?_, fun st' => removeEntry_idem _ st', ?_⟩
  · intro s' e he
    rw [processSignal_snd] at he
    rw [List.mem_reverse] at he
    by_cases hne : s' = sig
    · subst hne
      rw [c1] at he
      have := hbound e he
      omega
    · rw [c2 s' hne, listFor_OnSignal_ne _ _ _ h hne] at he
      have := listFor_eid_lt h s' e he
      omega
  · intro hts t ht hsome s'
    rw [processSignal_term_state ht hsome]
    refine listFor_removeEntry_of_ne _ _ _ ?_
    have hlidlt : (OnSignal sig cb st).1.lid < (OnSignal sig cb st).2.nextL :=
      hbnd _ (alookup_mem hself)
    rw [truncate_cbsList_lookup]
    by_cases h1 : Sig.SIGQUIT = s'
    · simp only [h1, if_pos rfl]
      intro he
      injection he with he'
      omega
    by_cases h2 : Sig.SIGINT = s'
    · simp only [if_neg h1, h2, if_pos rfl]
      intro he
      injection he with he'
      omega
    by_cases h3 : Sig.SIGKILL = s'
    · simp only [if_neg h1, if_neg h2, h3, if_pos rfl]
      intro he
      injection he with he'
      omega
    · simp only [if_neg h1, if_neg h2, if_neg h3]
      cases hcs : alookup (OnSignal sig cb st).2.cbsList s' with
      | none => simp
      | some lid' =>
          intro he
          injection he with he'
          have hss : s' = sig :=
            alookup_inj_of_snd_nodup hsnd (by rw [hcs, he']) hself
          subst hss
          cases s' with
          | SIGKILL => exact h3 rfl
          | SIGINT => exact h2 rfl
          | SIGQUIT => exact h1 rfl
          | SIGUSR1 => simp [isTermClass] at hts
          | other n => simp [isTermClass] at hts

/-- C4 witness: register on the quit identity twice with the same callback
value; the first handle removes only its own entry. -/
theorem C4_remover_semantics_witness :
    ((listFor (removeEntry (OnSignal .SIGQUIT 5 (OnSignal .SIGQUIT 5 initState).2).1
        (OnSignal .SIGQUIT 5 (OnSignal .SIGQUIT 5 initState).2).2)
        .SIGQUIT).getD [] =
      (listFor (OnSignal .SIGQUIT 5 initState).2 .SIGQUIT).getD []) ∧
    (∀ s', s' ≠ .SIGQUIT →
      listFor (removeEntry (OnSignal .SIGQUIT 5 (OnSignal .SIGQUIT 5 initState).2).1
          (OnSignal .SIGQUIT 5 (OnSignal .SIGQUIT 5 initState).2).2) s' =
        listFor (OnSignal .SIGQUIT 5 (OnSignal .SIGQUIT 5 initState).2).2 s') ∧
    (∀ s', ∀ e ∈ (processSignal s'
        (removeEntry (OnSignal .SIGQUIT 5 (OnSignal .SIGQUIT 5 initState).2).1
          (OnSignal .SIGQUIT 5 (OnSignal .SIGQUIT 5 initState).2).2)).2,
      e.eid ≠ (OnSignal .SIGQUIT 5 (OnSignal .SIGQUIT 5 initState).2).1.eid) ∧
    (∀ st', removeEntry (OnSignal .SIGQUIT 5 (OnSignal .SIGQUIT 5 initState).2).1
        (removeEntry (OnSignal .SIGQUIT 5 (OnSignal .SIGQUIT 5 initState).2).1 st') =
      removeEntry (OnSignal .SIGQUIT 5 (OnSignal .SIGQUIT 5 initState).2).1 st') ∧
    (isTermClass .SIGQUIT = true → ∀ t, isTermClass t = true →
      (alookup (OnSignal .SIGQUIT 5 (OnSignal .SIGQUIT 5 initState).2).2.cbsList
        t).isSome →
      ∀ s', listFor (removeEntry
          (OnSignal .SIGQUIT 5 (OnSignal .SIGQUIT 5 initState).2).1
          (processSignal t
            (OnSignal .SIGQUIT 5 (OnSignal .SIGQUIT 5 initState).2).2).1) s' =
        listFor (processSignal t
          (OnSignal .SIGQUIT 5 (OnSignal .SIGQUIT 5 initState).2).2).1 s') :=
  C4_remover_semantics .SIGQUIT 5 (OnSignal .SIGQUIT 5 initState).2 (by decide)

/-- C1: a termination-class dispatch that finds a callback list replaces the
lists of all three termination-class identities with empty ones, the
truncation event preceding every callback invocation of the dispatch; as a
consequence, across any sequence of termination-class dispatches each
registered entry is invoked at most once (the concatenated invocation log
holds no entry id twice). -/
theorem C1_termination_dedup (sigs : List Sig) (st : TrapState) (h : WF st)
    (hterm : ∀ s ∈ sigs, isTermClass s = true) :
    (((drain st sigs).2.map Entry.eid).Nodup) ∧
    (∀ s, isTermClass s = true → (alookup st.cbsList s).isSome →
      ∀ t, isTermClass t = true →
        listFor (processSignal s st).1 t = some []) ∧
    (∀ s, isTermClass s = true →
      ∀ tr1 tr2 e, processSignalTrace s st = tr1 ++ PEv.invoke e :: tr2 →
        PEv.truncateTerm ∈ tr1) :=
  ⟨drain_term_nodup sigs st h hterm,
   fun _ hs hsome t ht => by
     rw [processSignal_term_state hs hsome]
     exact listFor_truncate_term st ht,
   fun _ hs => truncate_before_invoke st hs⟩

/-- C1 witness: two interrupt registrations and one quit registration, then
an interrupt, a quit and a kill-class dispatch in the same drain. -/
theorem C1_termination_dedup_witness :
    (((drain (OnSignal .SIGQUIT 3 (OnSignal .SIGINT 2
        (OnSignal .SIGINT 1 initState).2).2).2
        [Sig.SIGINT, Sig.SIGQUIT, Sig.SIGKILL]).2.map Entry.eid).Nodup) ∧
    (∀ s, isTermClass s = true →
      (alookup (OnSignal .SIGQUIT 3 (OnSignal .SIGINT 2
        (OnSignal .SIGINT 1 initState).2).2).2.cbsList s).isSome →
      ∀ t, isTermClass t = true →
        listFor (processSignal s (OnSignal .SIGQUIT 3 (OnSignal .SIGINT 2
          (OnSignal .SIGINT 1 initState).2).2).2).1 t = some []) ∧
    (∀ s, isTermClass s = true →
      ∀ tr1 tr2 e, processSignalTrace s (OnSignal .SIGQUIT 3 (OnSignal .SIGINT 2
          (OnSignal .SIGINT 1 initState).2).2).2 = tr1 ++ PEv.invoke e :: tr2 →
        PEv.truncateTerm ∈ tr1) :=
  C1_termination_dedup [Sig.SIGINT, Sig.SIGQUIT, Sig.SIGKILL]
    (OnSignal .SIGQUIT 3 (OnSignal .SIGINT 2 (OnSignal .SIGINT 1 initState).2).2).2
    (by decide) (by decide)

theorem runRemovers_cons (r : Remover) (rs : List Remover) (st : TrapState) :
    runRemovers (r :: rs) st = runRemovers rs (removeEntry r st) := rfl

theorem OnSignal_oneList (sig : Sig) (c : Nat) (l : List Entry) (n : Nat) :
    OnSignal sig c (oneListState sig l n) =
      (⟨0, n⟩, oneListState sig (l ++ [Entry.mk n c]) (n + 1)) := by
  simp [OnSignal, oneListState, alookup, aupdate]

theorem OnSignal_initState (sig : Sig) (c : Nat) :
    OnSignal sig c initState = (⟨0, 0⟩, oneListState sig [Entry.mk 0 c] 1) := by
  simp [OnSignal, initState, oneListState, alookup, aupdate]

theorem regAll_oneList (sig : Sig) : ∀ (cbs : List Nat) (l : List Entry) (n : Nat),
    regAll sig cbs (oneListState sig l n) =
      (removersFrom n cbs.length,
       oneListState sig (l ++ entriesFrom n cbs) (n + cbs.length)) := by
  intro cbs
  induction cbs with
  | nil =>
      intro l n
      simp [regAll, entriesFrom, removersFrom]
  | cons c rest ih =>
      intro l n
      simp only [regAll, OnSignal_oneList, ih (l ++ [Entry.mk n c]) (n + 1),
        List.length_cons, removersFrom, entriesFrom, Prod.mk.injEq]
      refine ⟨trivial, ?_⟩
      rw [List.append_assoc]
      simp only [List.singleton_append]
      have harith : n + 1 + rest.length = n + (rest.length + 1) := by omega
      rw [harith]

theorem regAll_initState_cons (sig : Sig) (c : Nat) (rest : List Nat) :
    regAll sig (c :: rest) initState =
      (removersFrom 0 (rest.length + 1),
       oneListState sig (entriesFrom 0 (c :: rest)) (rest.length + 1)) := by
  simp only [regAll, OnSignal_initState, regAll_oneList, removersFrom,
    entriesFrom, Prod.mk.injEq]
  refine ⟨trivial, ?_⟩
  simp only [List.singleton_append]
  have harith : 1 + rest.length = rest.length + 1 := by omega
  rw [harith]

theorem processSignal_oneList (sig : Sig) (l : List Entry) (n : Nat) :
    (processSignal sig (oneListState sig l n)).2 = l.reverse := by
  rw [processSignal_snd]
  simp [listFor, oneListState, alookup]

theorem removeEntry_oneList (sig : Sig) (j : Nat) (l : List Entry) (n : Nat) :
    removeEntry (Remover.mk 0 j) (oneListState sig l n) =
      oneListState sig (l.filter fun e => e.eid ≠ j) n := by
  simp [removeEntry, oneListState, alookup, aupdate]

theorem removersFrom_getElem : ∀ (k s i : Nat),
    (removersFrom s k)[i]? = if i < k then some (Remover.mk 0 (s + i)) else none := by
  intro k
  induction k with
  | zero =>
      intro s i
      simp [removersFrom]
  | succ k ih =>
      intro s i
      cases i with
      | zero => simp [removersFrom]
      | succ j =>
          simp only [removersFrom, List.getElem?_cons_succ, ih (s + 1) j]
          by_cases hj : j < k
          · rw [if_pos hj, if_pos (by omega)]
            have : s + 1 + j = s + (j + 1) := by omega
            rw [this]
          · rw [if_neg hj, if_neg (by omega)]

theorem entriesFrom_map_cb : ∀ (cbs : List Nat) (n : Nat),
    (entriesFrom n cbs).map Entry.cb = cbs := by
  intro cbs
  induction cbs with
  | nil =>
      intro n
      simp [entriesFrom]
  | cons c rest ih =>
      intro n
      simp [entriesFrom, ih]

theorem entriesFrom_eid_lt : ∀ (cbs : List Nat) (n : Nat),
    ∀ e ∈ entriesFrom n cbs, e.eid < n + cbs.length := by
  intro cbs
  induction cbs with
  | nil =>
      intro n e he
      simp [entriesFrom] at he
  | cons c rest ih =>
      intro n e he
      simp only [entriesFrom, List.mem_cons] at he
      rcases he with rfl | he
      · simp only [List.length_cons]
        omega
      · have := ih (n + 1) e he
        simp only [List.length_cons]
        omega

theorem runRemovers_oneList (sig : Sig) (k : Nat) :
    ∀ (rem : List Nat) (l : List Entry) (n : Nat), (∀ e ∈ l, e.eid < k) →
    runRemovers (rem.filterMap fun i => (removersFrom 0 k)[i]?)
        (oneListState sig l n) =
      oneListState sig (l.filter fun e => decide (e.eid ∉ rem)) n := by
  intro rem
  induction rem with
  | nil =>
      intro l n _
      have hfl : (l.filter fun e => decide (e.eid ∉ ([] : List Nat))) = l :=
        List.filter_eq_self.mpr (fun a _ => by simp)
      rw [List.filterMap_nil, hfl]
      rfl
  | cons i rest ih =>
      intro l n hb
      rw [List.filterMap_cons, removersFrom_getElem]
      by_cases hik : i < k
      · rw [if_pos hik]
        simp only [Nat.zero_add, runRemovers_cons, removeEntry_oneList]
        rw [ih (l.filter fun e => e.eid ≠ i) n
          (fun e he => hb e (List.mem_of_mem_filter he))]
        congr 1
        rw [List.filter_filter]
        refine List.filter_congr ?_
        intro e _
        by_cases h1 : e.eid = i <;> by_cases h2 : e.eid ∈ rest <;>
          simp [h1, h2]
      · rw [if_neg hik]
        simp only
        rw [ih l n hb]
        congr 1
        refine List.filter_congr ?_
        intro e he
        have hne : e.eid ≠ i := by
          have := hb e he
          omega
        simp [hne]

/-- C2: registering a sequence of callbacks on one identity and then
removing any chosen subset of them through their handles, dispatch invokes
exactly the registered-and-not-removed entries, last registered first; with
nothing removed, the invoked callback values are exactly the registration
sequence reversed. -/
theorem C2_lifo_dispatch (sig : Sig) (cbs : List Nat) (rem : List Nat) :
    ((processSignal sig (regAll sig cbs initState).2).2.map Entry.cb =
      cbs.reverse) ∧
    ((processSignal sig
        (runRemovers (rem.filterMap fun i => (regAll sig cbs initState).1[i]?)
          (regAll sig cbs initState).2)).2 =
      ((entriesFrom 0 cbs).filter fun e => decide (e.eid ∉ rem)).reverse) := by
  cases cbs with
  | nil =>
      have hps : processSignal sig initState = (initState, []) :=
        processSignal_eq_of_none (by simp [initState, alookup])
      have hpick : (rem.filterMap fun i => (([] : List Remover))[i]?) = [] := by
        simp
      constructor
      · simp [regAll, hps]
      · simp only [regAll, hpick]
        simp [runRemovers, hps, entriesFrom]
  | cons c rest =>
      rw [regAll_initState_cons]
      have hblen : ∀ e ∈ entriesFrom 0 (c :: rest), e.eid < rest.length + 1 := by
        intro e he
        have := entriesFrom_eid_lt (c :: rest) 0 e he
        simp only [List.length_cons] at this
        omega
      constructor
      · rw [processSignal_oneList]
        simp [List.map_reverse, entriesFrom_map_cb]
      · rw [runRemovers_oneList sig (rest.length + 1) rem _ _ hblen,
          processSignal_oneList]

theorem isTermClass_eq_false_of_ne {s : Sig} (h1 : Sig.SIGQUIT ≠ s)
    (h2 : Sig.SIGINT ≠ s) (h3 : Sig.SIGKILL ≠ s) : isTermClass s = false := by
  cases s <;> simp_all [isTermClass]

/-- C8 counterexample: register one callback on the interrupt identity only
(`notified` records exactly one `signal.Notify` call and no kill-class list
exists), then dispatch the interrupt: afterwards a callback list exists for
the kill-class identity although no callback was ever registered for it —
the claimed if-and-only-if invariant does not survive termination dispatch. -/
theorem C8_truncation_creates_unregistered_list :
    ((OnSignal .SIGINT 0 initState).2.notified = [Sig.SIGINT]) ∧
    (listFor (OnSignal .SIGINT 0 initState).2 .SIGKILL = none) ∧
    (listFor (processSignal .SIGINT
      (OnSignal .SIGINT 0 initState).2).1 .SIGKILL = some []) := by
  decide

/-- C8 amended: registration lazily creates the list exactly for the
registered identity (and requests OS delivery exactly when the list is
newly created); removal never creates or removes a list; dispatch never
removes a list, and creates lists only for the three termination-class
identities, precisely when a termination-class identity whose list exists
is dispatched — so a list can exist for a termination identity that never
saw a registration. -/
theorem C8_list_existence (sig : Sig) (cb : Nat) (st : TrapState) (s : Sig)
    (r : Remover) (sd : Sig) :
    ((alookup (OnSignal sig cb st).2.cbsList s).isSome ↔
      (s = sig ∨ (alookup st.cbsList s).isSome)) ∧
    ((OnSignal sig cb st).2.notified = st.notified ++
      (if (alookup st.cbsList sig).isSome then [] else [sig])) ∧
    ((removeEntry r st).cbsList = st.cbsList) ∧
    ((alookup (processSignal sd st).1.cbsList s).isSome ↔
      ((alookup st.cbsList s).isSome ∨
        (isTermClass sd = true ∧ (alookup st.cbsList sd).isSome ∧
          isTermClass s = true))) := by
  refine ⟨?_, ?_, removeEntry_cbsList r st, ?_⟩
  · cases halt : alookup st.cbsList sig with
    | some lid =>
        have hsame : (OnSignal sig cb st).2.cbsList = st.cbsList := by
          unfold OnSignal
          rw [halt]
        rw [hsame]
        by_cases hs : s = sig
        · subst hs
          simp [halt]
        · simp [hs]
    | none =>
        have hupd : (OnSignal sig cb st).2.cbsList =
            aupdate st.cbsList sig st.nextL := by
          unfold OnSignal
          rw [halt]
        rw [hupd, alookup_aupdate]
        by_cases hs : sig = s
        · subst hs
          simp
        · simp only [if_neg hs]
          constructor
          · intro h'
            exact Or.inr h'
          · intro h'
            rcases h' with h' | h'
            · exact absurd h'.symm hs
            · exact h'
  · cases halt : alookup st.cbsList sig with
    | some lid =>
        have : (OnSignal sig cb st).2.notified = st.notified := by
          unfold OnSignal
          rw [halt]
        rw [this]
        simp
    | none =>
        have : (OnSignal sig cb st).2.notified = st.notified ++ [sig] := by
          unfold OnSignal
          rw [halt]
        rw [this]
        simp
  · cases hsd : alookup st.cbsList sd with
    | none =>
        rw [processSignal_eq_of_none hsd]
        simp [hsd]
    | some lid =>
        cases htd : isTermClass sd with
        | false =>
            have : (processSignal sd st).1 = st := by
              unfold processSignal
              rw [hsd]
              simp [htd]
            rw [this]
            simp [htd]
        | true =>
            rw [processSignal_term_state htd (by rw [hsd]; simp)]
            rw [truncate_cbsList_lookup]
            have hsome : (alookup st.cbsList sd).isSome := by
              rw [hsd]
              simp
            by_cases h1 : Sig.SIGQUIT = s
            · simp [← h1, hsome, isTermClass]
            by_cases h2 : Sig.SIGINT = s
            · simp [h1, ← h2, hsome, isTermClass]
            by_cases h3 : Sig.SIGKILL = s
            · simp [h1, h2, ← h3, hsome, isTermClass]
            · have hterm : isTermClass s = false :=
                isTermClass_eq_false_of_ne h1 h2 h3
              simp [h1, h2, h3, hterm]

end Trap
